import Mathlib

/-!
# Verification of the `stats` crate (streaming statistics aggregators)

Shallow embedding of the three source files of the repository:

* `src/stats.rs`    — `Variance` (online mean/variance, Welford update, CRDT merge),
* `src/frequency.rs` — `Frequencies` (exact frequency counts in a hash map),
* `src/unsorted.rs`  — `Unsorted` (lazily sorted sequence: median, quartiles,
  mode, modes, cardinality).

Modelling conventions:

* `f64` values are modelled exactly as rationals extended with a NaN element:
  `Fq := Option ℚ`, `none` standing for NaN.  Arithmetic is exact (IEEE rounding
  is not modelled; the spec itself states the formulas are "exact in exact
  arithmetic").  NaN propagates through every operation, and division by zero
  yields NaN.  (In IEEE semantics a nonzero numerator over zero gives an
  infinity, but in the code under verification the only reachable division by
  zero is `0/0`, which is NaN, so collapsing all divisions by zero to NaN is
  faithful on every reachable state.)
* `u64`/`usize` counters are modelled as `ℕ` (the counts never approach `2^64`;
  in debug builds the code would abort on overflow rather than wrap).
* The hash map of `Frequencies` is modelled as an association list whose keys
  are pairwise distinct (`freqKeysNodup`), the invariant every hash map enjoys.
* Sample values stored in `Unsorted` are modelled as `ℚ` (the external
  total-order wrapper plus the `to_f64` coercion make the stored data behave
  as an exactly ordered numeric type; `ℚ` realises that behaviour exactly).
* `sort_unstable` is modelled by `List.insertionSort (· ≤ ·)`: any comparison
  sort produces the one sorted permutation of the input, which is all the
  queries observe.
* `slice::get_unchecked` is modelled by `List.getD _ 0`; claim C10 separately
  proves every accessed index in bounds.
-/

/-- `f64` modelled as an exact rational extended with NaN (`none`). -/
abbrev Fq : Type := Option ℚ

/-- IEEE addition (exact, NaN-propagating). -/
def fadd : Fq → Fq → Fq
  | some a, some b => some (a + b)
  | _, _ => none

/-- IEEE subtraction (exact, NaN-propagating). -/
def fsub : Fq → Fq → Fq
  | some a, some b => some (a - b)
  | _, _ => none

/-- IEEE multiplication (exact, NaN-propagating). -/
def fmul : Fq → Fq → Fq
  | some a, some b => some (a * b)
  | _, _ => none

/-- IEEE division (exact, NaN-propagating).  Division by zero yields NaN:
the only division by zero reachable in the embedded code is `0/0`. -/
def fdiv : Fq → Fq → Fq
  | some a, some b => if b = 0 then none else some (a / b)
  | _, _ => none

/-- `src/stats.rs`: `pub struct Variance { size: u64, mean: f64, variance: f64 }`. -/
structure Variance : Type where
  size : ℕ
  mean : Fq
  variance : Fq
deriving DecidableEq, Repr

/-- `Variance::new()` / `Default`: size, mean and variance all zero. -/
def Variance.new : Variance := ⟨0, some 0, some 0⟩

/-- `src/stats.rs` `Variance::add` (Welford's incremental update), the sample
already coerced to `f64` (`sample.to_f64().unwrap()`). -/
def Variance.add (self : Variance) (sample : Fq) : Variance :=
  let oldmean := self.mean
  let prevq := fmul self.variance (some (self.size : ℚ))
  let size := self.size + 1
  let mean := fadd self.mean (fdiv (fsub sample oldmean) (some (size : ℚ)))
  let variance := fdiv (fadd prevq (fmul (fsub sample oldmean) (fsub sample mean)))
      (some (size : ℚ))
  ⟨size, mean, variance⟩

/-- `src/stats.rs` `impl Crdt for Variance`: the parallel-variance merge. -/
def Variance.merge (self v : Variance) : Variance :=
  let s1 : Fq := some (self.size : ℚ)
  let s2 : Fq := some (v.size : ℚ)
  let meandiffsq := fmul (fsub self.mean v.mean) (fsub self.mean v.mean)
  let mean := fdiv (fadd (fmul s1 self.mean) (fmul s2 v.mean)) (fadd s1 s2)
  let var := fadd
      (fdiv (fadd (fmul s1 self.variance) (fmul s2 v.variance)) (fadd s1 s2))
      (fdiv (fmul (fmul s1 s2) meandiffsq) (fmul (fadd s1 s2) (fadd s1 s2)))
  ⟨self.size + v.size, mean, var⟩

/-- The spec's wording of the Welford update (§4.2): `delta = sample - mean;
size += 1; mean += delta / size; variance = (variance*(size-1) +
delta*(sample-mean)) / size`, with the pre-update mean and post-increment
size. -/
def specWelfordAdd (self : Variance) (sample : Fq) : Variance :=
  let delta := fsub sample self.mean
  let size := self.size + 1
  let mean := fadd self.mean (fdiv delta (some (size : ℚ)))
  let variance := fdiv
      (fadd (fmul self.variance (some ((size - 1 : ℕ) : ℚ)))
        (fmul delta (fsub sample mean)))
      (some (size : ℚ))
  ⟨size, mean, variance⟩

/-! ## `src/frequency.rs` : `Frequencies<T>`

The `AHashMap<T, u64>` is modelled as an association list `List (α × ℕ)`;
a hash map always has pairwise-distinct keys (`freqKeysNodup`). -/

/-- One `self.data.entry(k)` update adding `c` to `k`'s count:
`Vacant → insert c`, `Occupied → *count += c`.  (`Frequencies::add` uses
`c = 1`; `Frequencies::merge` uses the count from the other table.) -/
def entryAdd {α : Type} [DecidableEq α] : List (α × ℕ) → α → ℕ → List (α × ℕ)
  | [], k, c => [(k, c)]
  | (k', c') :: rest, k, c =>
    if k' = k then (k', c' + c) :: rest else (k', c') :: entryAdd rest k c

/-- `src/frequency.rs`: `pub struct Frequencies<T> { data: AHashMap<T, u64> }`. -/
structure Frequencies (α : Type) : Type where
  data : List (α × ℕ)
deriving DecidableEq, Repr

/-- The hash-map invariant: keys are pairwise distinct. -/
def freqKeysNodup {α : Type} (m : List (α × ℕ)) : Prop := (m.map Prod.fst).Nodup

instance {α : Type} [DecidableEq α] (m : List (α × ℕ)) : Decidable (freqKeysNodup m) := by
  unfold freqKeysNodup; infer_instance

/-- `Frequencies::new()` / `Default`: the empty table. -/
def Frequencies.new {α : Type} : Frequencies α := ⟨[]⟩

/-- `Frequencies::add`: `entry(v)`: vacant → insert 1, occupied → `+= 1`. -/
def Frequencies.add {α : Type} [DecidableEq α] (f : Frequencies α) (v : α) : Frequencies α :=
  ⟨entryAdd f.data v 1⟩

/-- Lookup helper for `Frequencies::count` (`self.data.get(v)`). -/
def lookupCount {α : Type} [DecidableEq α] : List (α × ℕ) → α → ℕ
  | [], _ => 0
  | (k, c) :: rest, v => if k = v then c else lookupCount rest v

/-- `Frequencies::count`: the stored count, or 0 if never seen. -/
def Frequencies.count {α : Type} [DecidableEq α] (f : Frequencies α) (v : α) : ℕ :=
  lookupCount f.data v

/-- `impl Commute for Frequencies`: fold the other table's entries into `self`
(`Vacant → insert v2`, `Occupied → *v1 += v2`). -/
def Frequencies.merge {α : Type} [DecidableEq α] (f other : Frequencies α) : Frequencies α :=
  ⟨other.data.foldl (fun acc p => entryAdd acc p.1 p.2) f.data⟩

/-- `Extend`/`FromIterator` for `Frequencies`: `add` every sample in order. -/
def Frequencies.ofList {α : Type} [DecidableEq α] (l : List α) : Frequencies α :=
  l.foldl Frequencies.add Frequencies.new

/-- Descending-by-count order used by `most_frequent`'s
`sort_unstable_by(|(_, c1), (_, c2)| c2.cmp(&c1))`. -/
def countDesc {α : Type} (a b : α × ℕ) : Prop := b.2 ≤ a.2

instance {α : Type} : DecidableRel (@countDesc α) := fun a b => Nat.decLe _ _

/-- `Frequencies::most_frequent`: all `(value, count)` pairs sorted by
descending count (the unstable sort is modelled by insertion sort; `mode`, the
only consumer embedded here, is insensitive to the order among tied counts). -/
def Frequencies.mostFrequent {α : Type} (f : Frequencies α) : List (α × ℕ) :=
  f.data.insertionSort countDesc

/-- `Frequencies::mode`: `None` on an empty table or when the two top counts
tie, otherwise the value with the (strictly) largest count. -/
def Frequencies.mode {α : Type} (f : Frequencies α) : Option α :=
  match f.mostFrequent with
  | [] => none
  | [a] => some a.1
  | a :: b :: _ => if a.2 = b.2 then none else some a.1

/-! ## `src/unsorted.rs` : `Unsorted<T>` and the `*_on_sorted` helpers -/

/-- `src/unsorted.rs`: `pub struct Unsorted<T> { data: Vec<Partial<T>>, sorted: bool }`
(the total-order wrapper around `T` is modelled by requiring `LinearOrder α`). -/
structure Unsorted (α : Type) : Type where
  data : List α
  sorted : Bool
deriving DecidableEq, Repr

/-- `Unsorted::new()` / `Default`: empty data, `sorted: true`. -/
def Unsorted.new {α : Type} : Unsorted α := ⟨[], true⟩

/-- `Unsorted::dirtied`: `self.sorted = false`. -/
def Unsorted.dirtied {α : Type} (u : Unsorted α) : Unsorted α := ⟨u.data, false⟩

/-- `Unsorted::add`: `self.dirtied(); self.data.push(Partial(v))`. -/
def Unsorted.add {α : Type} (u : Unsorted α) (v : α) : Unsorted α :=
  ⟨(u.dirtied).data ++ [v], (u.dirtied).sorted⟩

/-- `Unsorted::sort` as a state transformer: sorts the data when the flag is
unset.  NOTE (faithful to the source): the flag is *not* set to `true`
afterwards — the code's `sort` only reads the flag, it never writes it. -/
def Unsorted.sort {α : Type} [LinearOrder α] (u : Unsorted α) : Unsorted α :=
  if u.sorted then u else ⟨u.data.insertionSort (· ≤ ·), u.sorted⟩

/-- `impl Commute for Unsorted`: `self.dirtied(); self.data.extend(v.data)`. -/
def Unsorted.merge {α : Type} (u v : Unsorted α) : Unsorted α :=
  ⟨(u.dirtied).data ++ v.data, (u.dirtied).sorted⟩

/-- `impl Extend for Unsorted`: `self.dirtied(); self.data.extend(it)`. -/
def Unsorted.extendSamples {α : Type} (u : Unsorted α) (l : List α) : Unsorted α :=
  ⟨(u.dirtied).data ++ l, (u.dirtied).sorted⟩

/-- `FromIterator` via repeated `add`: an instance built by adding the
samples of `l` in order. -/
def Unsorted.ofList {α : Type} (l : List α) : Unsorted α :=
  l.foldl Unsorted.add Unsorted.new

/-- `Unsorted::len`. -/
def Unsorted.len {α : Type} (u : Unsorted α) : ℕ := u.data.length

/-- `Unsorted::cardinality`: sort, then `dedup` (remove *consecutive*
duplicates, which is `List.destutter (· ≠ ·)`), then length. -/
def Unsorted.cardinality {α : Type} [LinearOrder α] (u : Unsorted α) : ℕ :=
  ((u.sort).data.destutter (· ≠ ·)).length

/-- `median_on_sorted` (`src/unsorted.rs`): `data[i]` is modelled by
`List.getD data i 0`; all accessed indices are in bounds. -/
def median_on_sorted (data : List ℚ) : Option ℚ :=
  if data.length = 0 then none
  else if data.length = 1 then some (data.getD 0 0)
  else if data.length % 2 = 0 then
    some ((data.getD (data.length / 2 - 1) 0 + data.getD (data.length / 2) 0) / 2)
  else some (data.getD (data.length / 2) 0)

/-- `quartiles_on_sorted` (`src/unsorted.rs`): the four `len % 4` branches;
`get_unchecked(i)` is modelled by `List.getD data i 0` (claim C10 proves each
accessed index in bounds). -/
def quartiles_on_sorted (data : List ℚ) : Option (ℚ × ℚ × ℚ) :=
  let len := data.length
  if len ≤ 2 then none
  else if len = 3 then some (data.getD 0 0, data.getD 1 0, data.getD 2 0)
  else
    let r := len % 4
    let k := (len - r) / 4
    if r = 0 then
      some ((data.getD (k - 1) 0 + data.getD k 0) / 2,
            (data.getD (2 * k - 1) 0 + data.getD (2 * k) 0) / 2,
            (data.getD (3 * k - 1) 0 + data.getD (3 * k) 0) / 2)
    else if r = 1 then
      some ((data.getD (k - 1) 0 + data.getD k 0) / 2,
            data.getD (2 * k) 0,
            (data.getD (3 * k) 0 + data.getD (3 * k + 1) 0) / 2)
    else if r = 2 then
      some (data.getD k 0,
            (data.getD (2 * k) 0 + data.getD (2 * k + 1) 0) / 2,
            data.getD (3 * k + 1) 0)
    else
      some (data.getD k 0, data.getD (2 * k + 1) 0, data.getD (3 * k + 2) 0)

/-- The indices `get_unchecked` reads inside `quartiles_on_sorted`'s general
(`len ≥ 4`) branch, per `r = len % 4`. -/
def quartilesIndices (n : ℕ) : List ℕ :=
  let r := n % 4
  let k := (n - r) / 4
  if r = 0 then [k - 1, k, 2 * k - 1, 2 * k, 3 * k - 1, 3 * k]
  else if r = 1 then [k - 1, k, 2 * k, 3 * k, 3 * k + 1]
  else if r = 2 then [k, 2 * k, 2 * k + 1, 3 * k + 1]
  else [k, 2 * k + 1, 3 * k + 2]

/-- Loop state of `mode_on_sorted`: `(mode, next, mode_count, next_count)`. -/
structure ModeState (α : Type) : Type where
  mode : Option α
  next : Option α
  modeCount : ℕ
  nextCount : ℕ
deriving DecidableEq, Repr

/-- One iteration of the `mode_on_sorted` loop body. -/
def modeStep {α : Type} [DecidableEq α] (s : ModeState α) (x : α) : ModeState α :=
  let s1 :=
    if s.mode = some x then { s with modeCount := s.modeCount + 1 }
    else if s.next = some x then { s with nextCount := s.nextCount + 1 }
    else { s with next := some x, nextCount := 0 }
  if s1.modeCount < s1.nextCount then
    ⟨s1.next, none, s1.nextCount, 0⟩
  else if s1.nextCount = s1.modeCount then
    { s1 with mode := none, modeCount := 0 }
  else s1

/-- `mode_on_sorted` (`src/unsorted.rs`): single pass with a current-run /
best-run pair of registers; returns the final `mode` register. -/
def mode_on_sorted {α : Type} [DecidableEq α] (l : List α) : Option α :=
  (l.foldl modeStep ⟨none, none, 0, 0⟩).mode

/-- `Unsorted::mode`: sort, then scan. -/
def Unsorted.mode {α : Type} [LinearOrder α] (u : Unsorted α) : Option α :=
  mode_on_sorted (u.sort).data

/-- Loop of `modes_on_sorted`: the parallel vectors `values`/`modes` together
with the index `count` of the last pushed value are modelled as a list of
`(value, run length)` pairs *in reverse order* (head = current run);
`highest` is the running `highest_mode`. -/
def modesGo {α : Type} [DecidableEq α] :
    List α → List (α × ℕ) → ℕ → List (α × ℕ) × ℕ
  | [], runs, highest => (runs, highest)
  | x :: xs, [], highest => modesGo xs [(x, 1)] highest
  | x :: xs, (v, c) :: rest, highest =>
    if x = v then
      modesGo xs ((v, c + 1) :: rest) (if highest < c + 1 then c + 1 else highest)
    else
      modesGo xs ((x, 1) :: (v, c) :: rest) highest

/-- `modes_on_sorted` (`src/unsorted.rs`): run-length counting followed by the
filter `*cnt == highest_mode && highest_mode > 1` over the `(count, value)`
pairs in first-appearance order. -/
def modes_on_sorted {α : Type} [DecidableEq α] (l : List α) : List α :=
  let p := modesGo l [] 1
  ((p.1.reverse).filter fun q => decide (q.2 = p.2) && decide (1 < p.2)).map Prod.fst

/-- `Unsorted::modes`: sort, then run-length scan. -/
def Unsorted.modes {α : Type} [LinearOrder α] (u : Unsorted α) : List α :=
  modes_on_sorted (u.sort).data

/-- `Unsorted::median`: sort, then `median_on_sorted`.  (The code's
`T: ToPrimitive` bound — every sample coerced to `f64` — is modelled by
taking the samples in `ℚ`.) -/
def Unsorted.median (u : Unsorted ℚ) : Option ℚ :=
  median_on_sorted (u.sort).data

/-- `Unsorted::quartiles`: sort, then `quartiles_on_sorted`. -/
def Unsorted.quartiles (u : Unsorted ℚ) : Option (ℚ × ℚ × ℚ) :=
  quartiles_on_sorted (u.sort).data

/-! ## Definitions written from the spec's words (for refinement claims) -/

/-- Spec §4.3 `median()`: `None` for empty input; for `n` sorted values the
middle element when `n` is odd, the average of the two middle elements when
`n` is even. -/
def specMedian (sorted : List ℚ) : Option ℚ :=
  if sorted.length = 0 then none
  else if sorted.length % 2 = 1 then some (sorted.getD (sorted.length / 2) 0)
  else some ((sorted.getD (sorted.length / 2 - 1) 0 + sorted.getD (sorted.length / 2) 0) / 2)

/-- Spec §4.3 `quartiles()`: `None` for `n < 3`; the three elements for
`n = 3`; otherwise the `n mod 4` table of exact 0-based index formulas. -/
def specQuartiles (sorted : List ℚ) : Option (ℚ × ℚ × ℚ) :=
  let n := sorted.length
  let x : ℕ → ℚ := fun i => sorted.getD i 0
  if n < 3 then none
  else if n = 3 then some (x 0, x 1, x 2)
  else
    let k := (n - n % 4) / 4
    match n % 4 with
    | 0 => some ((x (k - 1) + x k) / 2, (x (2 * k - 1) + x (2 * k)) / 2,
                 (x (3 * k - 1) + x (3 * k)) / 2)
    | 1 => some ((x (k - 1) + x k) / 2, x (2 * k), (x (3 * k) + x (3 * k + 1)) / 2)
    | 2 => some (x k, (x (2 * k) + x (2 * k + 1)) / 2, x (3 * k + 1))
    | _ => some (x k, x (2 * k + 1), x (3 * k + 2))

/-- Run-length encoding of a list (spec glossary: a *run* is a maximal
consecutive block of equal values), starting from a current run of `c`
occurrences of `v`. -/
def rleFrom {α : Type} [DecidableEq α] (v : α) (c : ℕ) : List α → List (α × ℕ)
  | [] => [(v, c)]
  | x :: xs => if x = v then rleFrom v (c + 1) xs else (v, c) :: rleFrom x 1 xs

/-- Run-length encoding of a list. -/
def rle {α : Type} [DecidableEq α] : List α → List (α × ℕ)
  | [] => []
  | x :: xs => rleFrom x 1 xs

/-- The maximum run length of a list (0 for the empty list). -/
def maxRunLen {α : Type} [DecidableEq α] (l : List α) : ℕ :=
  ((rle l).map Prod.snd).foldr max 0

/-- Spec §4.3 `modes()`: all values whose run length equals the maximum run
length, provided that maximum exceeds 1; the empty sequence otherwise. -/
def specModes {α : Type} [DecidableEq α] (sorted : List α) : List α :=
  if 1 < maxRunLen sorted then
    ((rle sorted).filter fun q => decide (q.2 = maxRunLen sorted)).map Prod.fst
  else []


/-! ## Helper lemmas about `Unsorted` -/

theorem unsorted_foldl_add_data {α : Type} :
    ∀ (l : List α) (u : Unsorted α), (l.foldl Unsorted.add u).data = u.data ++ l := by
  intro l
  induction l with
  | nil => intro u; simp
  | cons x xs ih =>
    intro u
    simp only [List.foldl_cons, ih, Unsorted.add, Unsorted.dirtied]
    simp

theorem unsorted_ofList_data {α : Type} (l : List α) : (Unsorted.ofList l).data = l := by
  simp [Unsorted.ofList, unsorted_foldl_add_data, Unsorted.new]

theorem unsorted_foldl_add_sorted {α : Type} :
    ∀ (l : List α) (u : Unsorted α), l ≠ [] → (l.foldl Unsorted.add u).sorted = false := by
  intro l
  induction l with
  | nil => intro u h; exact absurd rfl h
  | cons x xs ih =>
    intro u _
    rcases xs with _ | ⟨y, ys⟩
    · simp [Unsorted.add, Unsorted.dirtied]
    · exact ih _ (by simp)

theorem unsorted_ofList_sort_data {α : Type} [LinearOrder α] (l : List α) :
    ((Unsorted.ofList l).sort).data = l.insertionSort (· ≤ ·) := by
  rcases l with _ | ⟨x, xs⟩
  · simp [Unsorted.ofList, Unsorted.new, Unsorted.sort]
  · have hs : (Unsorted.ofList (x :: xs)).sorted = false :=
      unsorted_foldl_add_sorted (x :: xs) Unsorted.new (by simp)
    simp [Unsorted.sort, hs, unsorted_ofList_data]

theorem unsorted_merge_sort_data {α : Type} [LinearOrder α] (a b : Unsorted α) :
    ((a.merge b).sort).data = (a.data ++ b.data).insertionSort (· ≤ ·) := by
  simp [Unsorted.merge, Unsorted.dirtied, Unsorted.sort]

/-- Sorting is a function of the multiset of elements: permuted inputs have
the same sorted form. -/
theorem insertionSort_eq_of_perm {α : Type} [LinearOrder α] {l₁ l₂ : List α}
    (h : l₁.Perm l₂) :
    l₁.insertionSort (· ≤ ·) = l₂.insertionSort (· ≤ ·) := by
  have hp : (l₁.insertionSort (· ≤ ·)).Perm (l₂.insertionSort (· ≤ ·)) :=
    (List.perm_insertionSort _ _).trans (h.trans (List.perm_insertionSort _ _).symm)
  exact List.eq_of_perm_of_sorted hp (List.sorted_insertionSort _ _)
    (List.sorted_insertionSort _ _)

/-! ## Claim theorems -/

/-- C2.  The dirty-flag state machine.  The first half of the claim holds:
`add`, `merge` and `extend` all leave the flag unset (`Dirty`).  The second
half fails on the code: `Unsorted::sort` sorts the data but never writes
`self.sorted = true`, so after a query-triggered sort the state is still
`Dirty` and a repeated query sorts again.  Failing input: the instance built
from `[2, 1]`; after the query-triggered sort its data is `[1, 2]` but the
flag is still `false`. -/
theorem unsorted_dirty_flag_never_reset :
    (∀ (α : Type) (u : Unsorted α) (x : α), (u.add x).sorted = false) ∧
    (∀ (α : Type) (u v : Unsorted α), (u.merge v).sorted = false) ∧
    (∀ (α : Type) (u : Unsorted α) (l : List α), (u.extendSamples l).sorted = false) ∧
    ((Unsorted.ofList ([2, 1] : List ℤ)).sort).data = [1, 2] ∧
    ((Unsorted.ofList ([2, 1] : List ℤ)).sort).sorted = false := by
  refine ⟨fun α u x => rfl, fun α u v => rfl, fun α u l => rfl, ?_, ?_⟩ <;> decide

/-- C3.  The two mode implementations do *not* agree.  On
`[1,1,1,2,2,2,3,3]` the hash-based `Frequencies::mode` correctly reports the
tie between 1 and 2 (three occurrences each) as `None`, while the sorted-run
`mode_on_sorted` returns `Some 3` — a value that occurs only twice — because
the tie reset (`mode_count = 0`) erases the best-run length and lets the
later, shorter run win.  On the single-sample input `[3]` the hash-based
implementation returns `Some 3` but the run-based one returns `None`. -/
theorem mode_implementations_disagree :
    (Frequencies.ofList ([1, 1, 1, 2, 2, 2, 3, 3] : List ℤ)).mode = none ∧
    (Unsorted.ofList ([1, 1, 1, 2, 2, 2, 3, 3] : List ℤ)).mode = some 3 ∧
    (Frequencies.ofList ([3] : List ℤ)).mode = some 3 ∧
    (Unsorted.ofList ([3] : List ℤ)).mode = none := by
  refine ⟨?_, ?_, ?_, ?_⟩ <;> decide

/-- C8.  `Variance::add` implements exactly the Welford update stated by the
spec: size is incremented by 1, and mean/variance follow
`delta = sample - mean; mean += delta/size;
variance = (variance*(size-1) + delta*(sample-mean))/size`
with the pre-update mean and the post-increment size. -/
theorem variance_add_is_welford (s : Variance) (x : Fq) :
    Variance.add s x = specWelfordAdd s x ∧ (Variance.add s x).size = s.size + 1 := by
  constructor
  · simp [Variance.add, specWelfordAdd]
  · rfl

/-- C1 (counterexample).  Merging two zero-size `Variance` accumulators does
*not* yield `(0, 0.0, 0.0)`: the merge divides by `s1 + s2 = 0`, so mean and
variance are NaN (`0/0`), refuting the claim's "never NaN" clause. -/
theorem variance_merge_new_new_is_nan :
    (Variance.merge Variance.new Variance.new).mean = none ∧
    (Variance.merge Variance.new Variance.new).variance = none := by
  constructor <;> simp [Variance.merge, Variance.new, fadd, fmul, fdiv, fsub]

/-- C1 (amended).  Merging with a zero-size accumulator is a pure identity on
`(size, mean, variance)` whenever the non-empty operand has positive size and
finite (non-NaN) mean and variance — in either merge direction; but merging
two zero-size accumulators yields size 0 with NaN mean and NaN variance. -/
theorem variance_merge_empty_identity :
    (∀ (a : Variance) (m v : ℚ), a.mean = some m → a.variance = some v → 0 < a.size →
      a.merge Variance.new = a ∧ Variance.new.merge a = a) ∧
    (Variance.merge Variance.new Variance.new).size = 0 ∧
    (Variance.merge Variance.new Variance.new).mean = none ∧
    (Variance.merge Variance.new Variance.new).variance = none := by
  refine ⟨?_, rfl, ?_, ?_⟩
  · rintro ⟨sz, mean, var⟩ m v hm hv hs
    simp only at hm hv
    subst hm; subst hv
    simp only at hs
    have hszq : ((sz : ℚ)) ≠ 0 := by positivity
    constructor
    · simp only [Variance.merge, Variance.new, fadd, fmul, fdiv, fsub, Nat.cast_zero]
      have h1 : (sz : ℚ) + 0 ≠ 0 := by simpa using hszq
      rw [if_neg h1, if_neg (by simpa using mul_ne_zero h1 h1)]
      simp only [Variance.mk.injEq]
      refine ⟨by simp, ?_, ?_⟩ <;>
        · congr 1
          field_simp
          try ring
    · simp only [Variance.merge, Variance.new, fadd, fmul, fdiv, fsub, Nat.cast_zero]
      have h1 : (0 : ℚ) + sz ≠ 0 := by simpa using hszq
      rw [if_neg h1, if_neg (by simpa using mul_ne_zero h1 h1)]
      simp only [Variance.mk.injEq]
      refine ⟨by simp, ?_, ?_⟩ <;>
        · congr 1
          field_simp
          try ring
  · simp [Variance.merge, Variance.new, fadd, fmul, fdiv, fsub]
  · simp [Variance.merge, Variance.new, fadd, fmul, fdiv, fsub]

/-- C1 witness: the identity applied to the concrete accumulator
`(size 1, mean 2, variance 3)`. -/
theorem variance_merge_empty_identity_witness :
    (⟨1, some 2, some 3⟩ : Variance).mean = some 2 ∧
    (⟨1, some 2, some 3⟩ : Variance).variance = some 3 ∧
    0 < (⟨1, some 2, some 3⟩ : Variance).size ∧
    ((⟨1, some 2, some 3⟩ : Variance).merge Variance.new = ⟨1, some 2, some 3⟩ ∧
      Variance.new.merge (⟨1, some 2, some 3⟩ : Variance) = ⟨1, some 2, some 3⟩) :=
  ⟨rfl, rfl, Nat.one_pos,
    variance_merge_empty_identity.1 ⟨1, some 2, some 3⟩ 2 3 rfl rfl Nat.one_pos⟩

/-- C9.  `Unsorted` merge-as-union: for all states `a`, `b` and any ordering
`l` of the concatenation of their samples, the merged accumulator answers
`cardinality`, `mode`, `modes`, `median` and `quartiles` exactly as the
accumulator built by adding the samples of `l` one by one. -/
theorem unsorted_merge_as_union (a b : Unsorted ℚ) (l : List ℚ)
    (h : l.Perm (a.data ++ b.data)) :
    (a.merge b).cardinality = (Unsorted.ofList l).cardinality ∧
    (a.merge b).mode = (Unsorted.ofList l).mode ∧
    (a.merge b).modes = (Unsorted.ofList l).modes ∧
    (a.merge b).median = (Unsorted.ofList l).median ∧
    (a.merge b).quartiles = (Unsorted.ofList l).quartiles := by
  have key : ((a.merge b).sort).data = ((Unsorted.ofList l).sort).data := by
    rw [unsorted_merge_sort_data, unsorted_ofList_sort_data]
    exact (insertionSort_eq_of_perm h).symm
  exact ⟨congrArg (fun d => (d.destutter (· ≠ ·)).length) key,
    congrArg mode_on_sorted key, congrArg modes_on_sorted key,
    congrArg median_on_sorted key, congrArg quartiles_on_sorted key⟩

/-- C9 witness: merging the accumulators of `[3, 1]` and `[2]` agrees with
the accumulator of `[1, 2, 3]` on all five queries. -/
theorem unsorted_merge_as_union_witness :
    ([1, 2, 3] : List ℚ).Perm
      ((Unsorted.ofList ([3, 1] : List ℚ)).data ++ (Unsorted.ofList ([2] : List ℚ)).data) ∧
    (((Unsorted.ofList ([3, 1] : List ℚ)).merge (Unsorted.ofList ([2] : List ℚ))).cardinality =
        (Unsorted.ofList ([1, 2, 3] : List ℚ)).cardinality ∧
      ((Unsorted.ofList ([3, 1] : List ℚ)).merge (Unsorted.ofList ([2] : List ℚ))).mode =
        (Unsorted.ofList ([1, 2, 3] : List ℚ)).mode ∧
      ((Unsorted.ofList ([3, 1] : List ℚ)).merge (Unsorted.ofList ([2] : List ℚ))).modes =
        (Unsorted.ofList ([1, 2, 3] : List ℚ)).modes ∧
      ((Unsorted.ofList ([3, 1] : List ℚ)).merge (Unsorted.ofList ([2] : List ℚ))).median =
        (Unsorted.ofList ([1, 2, 3] : List ℚ)).median ∧
      ((Unsorted.ofList ([3, 1] : List ℚ)).merge (Unsorted.ofList ([2] : List ℚ))).quartiles =
        (Unsorted.ofList ([1, 2, 3] : List ℚ)).quartiles) := by
  have hp : ([1, 2, 3] : List ℚ).Perm
      ((Unsorted.ofList ([3, 1] : List ℚ)).data ++ (Unsorted.ofList ([2] : List ℚ)).data) := by
    rw [unsorted_ofList_data, unsorted_ofList_data]
    refine List.Perm.trans ?_ (List.Perm.swap 1 3 [2]).symm
    exact List.Perm.cons 1 (List.Perm.swap 3 2 [])
  exact ⟨hp, unsorted_merge_as_union _ _ _ hp⟩

/-- `median_on_sorted` computes exactly the spec's median of a sorted list
(the code's special case for one element coincides with the odd branch). -/
theorem median_on_sorted_eq_spec (l : List ℚ) : median_on_sorted l = specMedian l := by
  unfold median_on_sorted specMedian
  by_cases h0 : l.length = 0
  · rw [if_pos h0, if_pos h0]
  · rw [if_neg h0, if_neg h0]
    by_cases h1 : l.length = 1
    · have h2 : l.length % 2 = 1 := by omega
      have h3 : l.length / 2 = 0 := by omega
      rw [if_pos h1, if_pos h2, h3]
    · rw [if_neg h1]
      by_cases h2 : l.length % 2 = 0
      · have h3 : ¬ l.length % 2 = 1 := by omega
        rw [if_pos h2, if_neg h3]
      · have h3 : l.length % 2 = 1 := by omega
        rw [if_neg h2, if_pos h3]

/-- C5.  Median contract: `median()` is `None` on the empty accumulator and
otherwise returns the middle element (odd count) or the average of the two
middle elements (even count) of the sorted sequence, matching the seed cases
`median([x]) = x`, `median([3,5,7]) = 5` and `median([3,5,7,9]) = 6`. -/
theorem unsorted_median_contract :
    (∀ l : List ℚ, (Unsorted.ofList l).median = specMedian (l.insertionSort (· ≤ ·))) ∧
    (∀ l : List ℚ, (Unsorted.ofList l).median = none ↔ l = []) ∧
    (Unsorted.ofList ([] : List ℚ)).median = none ∧
    (∀ x : ℚ, (Unsorted.ofList [x]).median = some x) ∧
    (Unsorted.ofList ([3, 5, 7] : List ℚ)).median = some 5 ∧
    (Unsorted.ofList ([3, 5, 7, 9] : List ℚ)).median = some 6 := by
  have hgen : ∀ l : List ℚ,
      (Unsorted.ofList l).median = specMedian (l.insertionSort (· ≤ ·)) := by
    intro l
    unfold Unsorted.median
    rw [unsorted_ofList_sort_data, median_on_sorted_eq_spec]
  have hnone : ∀ l : List ℚ, (Unsorted.ofList l).median = none ↔ l = [] := by
    intro l
    rw [hgen]
    unfold specMedian
    have hlen : (l.insertionSort (· ≤ ·)).length = l.length :=
      (List.perm_insertionSort _ l).length_eq
    split_ifs with h0 h1
    · simp only [true_iff]
      rw [hlen] at h0
      exact List.length_eq_zero.mp h0
    · simp only [Option.some_ne_none, false_iff]
      intro hl
      subst hl
      simp at h0
    · simp only [Option.some_ne_none, false_iff]
      intro hl
      subst hl
      simp at h0
  refine ⟨hgen, hnone, rfl, fun x => rfl, ?_, ?_⟩
  · rw [hgen]
    have hs : (([3, 5, 7] : List ℚ).insertionSort (· ≤ ·)) = [3, 5, 7] := by
      norm_num [List.insertionSort, List.orderedInsert]
    rw [hs]
    norm_num [specMedian, List.getD]
  · rw [hgen]
    have hs : (([3, 5, 7, 9] : List ℚ).insertionSort (· ≤ ·)) = [3, 5, 7, 9] := by
      norm_num [List.insertionSort, List.orderedInsert]
    rw [hs]
    norm_num [specMedian, List.getD]

/-- `quartiles_on_sorted` computes exactly the spec's `n mod 4` table. -/
theorem quartiles_on_sorted_eq_spec (l : List ℚ) :
    quartiles_on_sorted l = specQuartiles l := by
  unfold quartiles_on_sorted specQuartiles
  by_cases hle : l.length ≤ 2
  · have hlt : l.length < 3 := by omega
    simp only [hle, hlt, if_true]
  · have hlt : ¬ l.length < 3 := by omega
    simp only [hle, hlt, if_false]
    by_cases h3 : l.length = 3
    · simp only [h3, if_true]
    · simp only [h3, if_false]
      have hm : l.length % 4 < 4 := Nat.mod_lt _ (by norm_num)
      rcases h4 : l.length % 4 with _ | n4
      · simp only [h4]
        norm_num
      · rcases n4 with _ | n4
        · simp only [h4]
          norm_num
        · rcases n4 with _ | n4
          · simp only [h4]
            norm_num
          · rcases n4 with _ | n4
            · simp only [h4]
              norm_num
            · omega

/-- C4.  Quartiles contract: `None` for fewer than 3 samples, the three sorted
elements for exactly 3, the spec's `n mod 4` index table for `n ≥ 4`, and the
five seed cases. -/
theorem unsorted_quartiles_contract :
    (∀ l : List ℚ, (Unsorted.ofList l).quartiles = specQuartiles (l.insertionSort (· ≤ ·))) ∧
    (∀ l : List ℚ, (Unsorted.ofList l).quartiles = none ↔ l.length < 3) ∧
    (Unsorted.ofList ([3, 5, 7] : List ℚ)).quartiles = some (3, 5, 7) ∧
    (Unsorted.ofList ([3, 5, 7, 9] : List ℚ)).quartiles = some (4, 6, 8) ∧
    (Unsorted.ofList ([1, 2, 7, 11] : List ℚ)).quartiles = some (3 / 2, 9 / 2, 9) ∧
    (Unsorted.ofList ([3, 5, 7, 9, 12] : List ℚ)).quartiles = some (4, 7, 21 / 2) ∧
    (Unsorted.ofList ([3, 5, 7, 9, 12, 20] : List ℚ)).quartiles = some (5, 8, 12) := by
  have hgen : ∀ l : List ℚ,
      (Unsorted.ofList l).quartiles = specQuartiles (l.insertionSort (· ≤ ·)) := by
    intro l
    unfold Unsorted.quartiles
    rw [unsorted_ofList_sort_data, quartiles_on_sorted_eq_spec]
  have hnone : ∀ l : List ℚ, (Unsorted.ofList l).quartiles = none ↔ l.length < 3 := by
    intro l
    rw [hgen]
    have hlen : (l.insertionSort (· ≤ ·)).length = l.length :=
      (List.perm_insertionSort _ l).length_eq
    simp only [specQuartiles, hlen]
    split_ifs with h0 h1
    · simp [h0]
    · simp [h0]
    · simp only [false_iff, h0]
      rcases h4 : l.length % 4 with _ | n4
      · simp
      · rcases n4 with _ | n4
        · simp
        · rcases n4 with _ | n4
          · simp
          · rcases n4 with _ | n4
            · simp
            · have : l.length % 4 < 4 := Nat.mod_lt _ (by norm_num)
              omega
  refine ⟨hgen, hnone, ?_, ?_, ?_, ?_, ?_⟩ <;>
    · rw [hgen]
      norm_num [List.insertionSort, List.orderedInsert, specQuartiles, List.getD]

/-- C10.  Safety of the unchecked indexing in `quartiles_on_sorted`: for every
length `n ≥ 4`, with `r = n mod 4` and `k = (n - r) / 4`, every index the
selected branch reads via `get_unchecked` is strictly below `n`. -/
theorem quartiles_unchecked_indices_in_bounds (n : ℕ) (hn : 4 ≤ n) :
    ∀ i ∈ quartilesIndices n, i < n := by
  intro i hi
  unfold quartilesIndices at hi
  have hm : n % 4 < 4 := Nat.mod_lt _ (by norm_num)
  have hk : n = 4 * ((n - n % 4) / 4) + n % 4 := by omega
  rcases h4 : n % 4 with _ | n4
  · simp only [h4] at hi hk
    norm_num at hi
    rcases hi with h | h | h | h | h | h <;> omega
  · rcases n4 with _ | n4
    · simp only [h4] at hi hk
      norm_num at hi
      rcases hi with h | h | h | h | h <;> omega
    · rcases n4 with _ | n4
      · simp only [h4] at hi hk
        norm_num at hi
        rcases hi with h | h | h | h <;> omega
      · rcases n4 with _ | n4
        · simp only [h4] at hi hk
          norm_num at hi
          rcases hi with h | h | h <;> omega
        · omega

/-- C10 witness: at length 7 (`r = 3`, `k = 1`) the accessed indices are all
below 7. -/
theorem quartiles_unchecked_indices_in_bounds_witness :
    4 ≤ 7 ∧ ∀ i ∈ quartilesIndices 7, i < 7 :=
  ⟨by norm_num, quartiles_unchecked_indices_in_bounds 7 (by norm_num)⟩

/-- The current run's count is a lower bound for the maximum count in the
run-length encoding it starts. -/
theorem rleFrom_count_le {α : Type} [DecidableEq α] :
    ∀ (xs : List α) (v : α) (c : ℕ),
      c ≤ ((rleFrom v c xs).map Prod.snd).foldr max 0 := by
  intro xs
  induction xs with
  | nil => intro v c; simp [rleFrom]
  | cons x xs ih =>
    intro v c
    by_cases hx : x = v
    · simp only [rleFrom, if_pos hx]
      exact le_trans (Nat.le_succ c) (ih v (c + 1))
    · simp only [rleFrom, if_neg hx, List.map_cons, List.foldr_cons]
      omega

/-- Invariant of the `modes_on_sorted` loop: starting from a current run of
`c ≥ 1` occurrences of `v` (with `highest ≥ max(1, c)` already accounting for
it), the loop computes the reversed run-length encoding of the remaining
input prefixed by that run, and `highest` becomes the maximum run length. -/
theorem modesGo_spec {α : Type} [DecidableEq α] :
    ∀ (xs : List α) (v : α) (c : ℕ) (rest : List (α × ℕ)) (h : ℕ),
      1 ≤ h → c ≤ h →
      modesGo xs ((v, c) :: rest) h =
        ((rleFrom v c xs).reverse ++ rest,
          max h (((rleFrom v c xs).map Prod.snd).foldr max 0)) := by
  intro xs
  induction xs with
  | nil =>
    intro v c rest h h1 hc
    simp [modesGo, rleFrom, Prod.ext_iff]
    omega
  | cons x xs ih =>
    intro v c rest h h1 hc
    by_cases hx : x = v
    · subst hx
      simp only [modesGo, if_pos rfl, rleFrom]
      have h1' : 1 ≤ (if h < c + 1 then c + 1 else h) := by split_ifs <;> omega
      have hc' : c + 1 ≤ (if h < c + 1 then c + 1 else h) := by split_ifs <;> omega
      rw [ih x (c + 1) rest _ h1' hc']
      have hM := rleFrom_count_le xs x (c + 1)
      rw [Prod.mk.injEq]
      refine ⟨rfl, ?_⟩
      split_ifs <;> omega
    · simp only [modesGo, if_neg hx, rleFrom]
      rw [ih x 1 ((v, c) :: rest) h h1 h1]
      rw [Prod.mk.injEq]
      constructor
      · rw [List.reverse_cons, List.append_assoc]
        rfl
      · simp only [List.map_cons, List.foldr_cons]
        omega

/-- `modes_on_sorted` computes exactly the spec's `modes`: all values whose
run length equals the maximum run length when that maximum exceeds 1, the
empty list otherwise. -/
theorem modes_on_sorted_eq_spec {α : Type} [DecidableEq α] (l : List α) :
    modes_on_sorted l = specModes l := by
  rcases l with _ | ⟨x, xs⟩
  · rfl
  · have hgo : modesGo (x :: xs) [] 1 =
        ((rleFrom x 1 xs).reverse ++ [],
          max 1 (((rleFrom x 1 xs).map Prod.snd).foldr max 0)) :=
      modesGo_spec xs x 1 [] 1 le_rfl le_rfl
    have hrle : rle (x :: xs) = rleFrom x 1 xs := rfl
    simp only [modes_on_sorted, specModes, maxRunLen, hgo, hrle, List.append_nil,
      List.reverse_reverse]
    by_cases hM : 1 < ((rleFrom x 1 xs).map Prod.snd).foldr max 0
    · rw [if_pos hM, Nat.max_eq_right (le_of_lt hM)]
      simp [hM]
    · rw [if_neg hM]
      have hmax : max 1 (((rleFrom x 1 xs).map Prod.snd).foldr max 0) = 1 := by omega
      rw [hmax]
      simp

/-- C6.  Modes contract: `Unsorted::modes` returns exactly the values whose
run length in the sorted sequence equals the maximum run length, provided
that maximum exceeds 1, and the empty sequence otherwise (so a value
occurring only once is never reported), matching the seed cases
`modes([3,5,7,9]) = []` and `modes([1,1,2,2]) = [1,2]`. -/
theorem unsorted_modes_contract :
    (∀ (α : Type) [inst : LinearOrder α] (l : List α),
      (Unsorted.ofList l).modes = specModes (l.insertionSort (· ≤ ·))) ∧
    (Unsorted.ofList ([3, 5, 7, 9] : List ℤ)).modes = [] ∧
    (Unsorted.ofList ([1, 1, 2, 2] : List ℤ)).modes = [1, 2] := by
  refine ⟨?_, by decide, by decide⟩
  intro α inst l
  unfold Unsorted.modes
  rw [unsorted_ofList_sort_data, modes_on_sorted_eq_spec]

/-! ## Helper lemmas about `Frequencies` -/

theorem lookupCount_entryAdd {α : Type} [DecidableEq α] :
    ∀ (m : List (α × ℕ)) (k : α) (c : ℕ) (v : α),
      lookupCount (entryAdd m k c) v = lookupCount m v + (if k = v then c else 0) := by
  intro m
  induction m with
  | nil =>
    intro k c v
    simp only [entryAdd, lookupCount]
    split_ifs <;> omega
  | cons p rest ih =>
    intro k c v
    obtain ⟨k', c'⟩ := p
    by_cases hk : k' = k
    · subst hk
      simp only [entryAdd, if_pos rfl, lookupCount]
      by_cases hv : k' = v
      · rw [if_pos hv, if_pos hv, if_pos hv]
      · rw [if_neg hv, if_neg hv, if_neg hv]
        omega
    · simp only [entryAdd, if_neg hk, lookupCount]
      by_cases hv : k' = v
      · have hkv : ¬ k = v := fun h => hk (hv.trans h.symm)
        rw [if_pos hv, if_pos hv, if_neg hkv]
        omega
      · rw [if_neg hv, if_neg hv, ih]

theorem lookupCount_foldl_entryAdd {α : Type} [DecidableEq α] :
    ∀ (l m : List (α × ℕ)) (v : α),
      lookupCount (l.foldl (fun acc p => entryAdd acc p.1 p.2) m) v =
        lookupCount m v + ((l.filter fun p => decide (p.1 = v)).map Prod.snd).sum := by
  intro l
  induction l with
  | nil => intro m v; simp
  | cons p rest ih =>
    intro m v
    simp only [List.foldl_cons]
    rw [ih, lookupCount_entryAdd]
    simp only [List.filter_cons, decide_eq_true_eq]
    by_cases hv : p.1 = v
    · rw [if_pos hv, if_pos hv]
      simp only [List.map_cons, List.sum_cons]
      omega
    · rw [if_neg hv, if_neg hv]
      omega

theorem filter_key_eq_nil_of_not_mem {α : Type} [DecidableEq α] :
    ∀ (m : List (α × ℕ)) (v : α), v ∉ m.map Prod.fst →
      (m.filter fun p => decide (p.1 = v)) = [] := by
  intro m
  induction m with
  | nil => intro v _; rfl
  | cons p rest ih =>
    intro v hv
    simp only [List.map_cons, List.mem_cons, not_or] at hv
    have hp : ¬ p.1 = v := fun h => hv.1 h.symm
    simp only [List.filter_cons, decide_eq_true_eq, if_neg hp]
    exact ih v hv.2

/-- On a table with pairwise-distinct keys the summed counts of all entries
for `v` coincide with the looked-up count. -/
theorem sum_filter_eq_lookupCount {α : Type} [DecidableEq α] :
    ∀ (m : List (α × ℕ)) (v : α), freqKeysNodup m →
      ((m.filter fun p => decide (p.1 = v)).map Prod.snd).sum = lookupCount m v := by
  intro m
  induction m with
  | nil => intro v _; rfl
  | cons p rest ih =>
    intro v hm
    unfold freqKeysNodup at hm
    simp only [List.map_cons, List.nodup_cons] at hm
    by_cases hv : p.1 = v
    · have hrest : (rest.filter fun q => decide (q.1 = v)) = [] :=
        filter_key_eq_nil_of_not_mem rest v (hv ▸ hm.1)
      simp only [List.filter_cons, decide_eq_true_eq, if_pos hv, List.map_cons,
        List.sum_cons, hrest, List.map_nil, List.sum_nil, lookupCount]
      omega
    · simp only [List.filter_cons, decide_eq_true_eq, if_neg hv, lookupCount]
      exact ih v hm.2

theorem mem_keys_entryAdd {α : Type} [DecidableEq α] :
    ∀ (m : List (α × ℕ)) (k : α) (c : ℕ) (v : α),
      v ∈ (entryAdd m k c).map Prod.fst → v ∈ m.map Prod.fst ∨ v = k := by
  intro m
  induction m with
  | nil =>
    intro k c v hv
    simp only [entryAdd, List.map_cons, List.map_nil, List.mem_singleton] at hv
    exact Or.inr hv
  | cons p rest ih =>
    intro k c v hv
    obtain ⟨k', c'⟩ := p
    by_cases hk : k' = k
    · subst hk
      simp only [entryAdd, eq_self_iff_true, if_true, List.map_cons, List.mem_cons] at hv ⊢
      tauto
    · simp only [entryAdd, if_neg hk, List.map_cons, List.mem_cons] at hv ⊢
      rcases hv with h | h
      · exact Or.inl (Or.inl h)
      · rcases ih k c v h with h' | h'
        · exact Or.inl (Or.inr h')
        · exact Or.inr h'

theorem freqKeysNodup_entryAdd {α : Type} [DecidableEq α] :
    ∀ (m : List (α × ℕ)) (k : α) (c : ℕ),
      freqKeysNodup m → freqKeysNodup (entryAdd m k c) := by
  intro m
  induction m with
  | nil => intro k c _; simp [entryAdd, freqKeysNodup]
  | cons p rest ih =>
    intro k c hm
    obtain ⟨k', c'⟩ := p
    unfold freqKeysNodup at hm ⊢
    simp only [List.map_cons, List.nodup_cons] at hm
    by_cases hk : k' = k
    · subst hk
      simp only [entryAdd, eq_self_iff_true, if_true, List.map_cons, List.nodup_cons]
      exact hm
    · simp only [entryAdd, if_neg hk, List.map_cons, List.nodup_cons]
      refine ⟨fun hmem => ?_, ih k c hm.2⟩
      rcases mem_keys_entryAdd rest k c k' hmem with h | h
      · exact hm.1 h
      · exact hk h

theorem freqKeysNodup_foldl_entryAdd {α : Type} [DecidableEq α] :
    ∀ (l m : List (α × ℕ)), freqKeysNodup m →
      freqKeysNodup (l.foldl (fun acc p => entryAdd acc p.1 p.2) m) := by
  intro l
  induction l with
  | nil => intro m hm; exact hm
  | cons p rest ih =>
    intro m hm
    exact ih _ (freqKeysNodup_entryAdd m p.1 p.2 hm)

theorem freqKeysNodup_foldl_add {α : Type} [DecidableEq α] :
    ∀ (l : List α) (f : Frequencies α), freqKeysNodup f.data →
      freqKeysNodup ((l.foldl Frequencies.add f).data) := by
  intro l
  induction l with
  | nil => intro f hf; exact hf
  | cons x rest ih =>
    intro f hf
    exact ih _ (freqKeysNodup_entryAdd f.data x 1 hf)

theorem freqKeysNodup_ofList {α : Type} [DecidableEq α] (l : List α) :
    freqKeysNodup (Frequencies.ofList l).data :=
  freqKeysNodup_foldl_add l Frequencies.new (by simp [Frequencies.new, freqKeysNodup])

/-- Key-wise count addition for `merge` (requires the other table's hash-map
key invariant). -/
theorem freq_count_merge {α : Type} [DecidableEq α] (a b : Frequencies α) (v : α)
    (hb : freqKeysNodup b.data) :
    (a.merge b).count v = a.count v + b.count v := by
  unfold Frequencies.merge Frequencies.count
  rw [lookupCount_foldl_entryAdd, sum_filter_eq_lookupCount b.data v hb]

theorem freq_count_foldl_add {α : Type} [DecidableEq α] :
    ∀ (l : List α) (f : Frequencies α) (v : α),
      (l.foldl Frequencies.add f).count v = f.count v + l.count v := by
  intro l
  induction l with
  | nil => intro f v; simp
  | cons x xs ih =>
    intro f v
    simp only [List.foldl_cons]
    rw [ih]
    unfold Frequencies.count Frequencies.add
    simp only
    rw [lookupCount_entryAdd, List.count_cons]
    by_cases hv : x = v
    · rw [if_pos hv, if_pos (beq_iff_eq.mpr hv)]
      omega
    · rw [if_neg hv, if_neg (fun h => hv (beq_iff_eq.mp h))]
      omega

/-- The count a frequency table built from a sample list stores for `v` is
the number of occurrences of `v` in the list. -/
theorem freq_count_ofList {α : Type} [DecidableEq α] (l : List α) (v : α) :
    (Frequencies.ofList l).count v = l.count v := by
  unfold Frequencies.ofList
  rw [freq_count_foldl_add]
  simp [Frequencies.count, Frequencies.new, lookupCount]

/-- C7.  `Frequencies::merge` is key-wise count addition (for any other table
satisfying the hash-map key invariant); consequently it is commutative and
associative at the level of observable counts, and merge-reducing per-shard
tables agrees with building one table from the concatenated samples, in any
order (permutation invariance). -/
theorem frequencies_merge_contract :
    (∀ (α : Type) [inst : DecidableEq α] (a b : Frequencies α) (v : α),
      freqKeysNodup b.data →
      (a.merge b).count v = a.count v + b.count v) ∧
    (∀ (α : Type) [inst : DecidableEq α] (a b : Frequencies α) (v : α),
      freqKeysNodup a.data → freqKeysNodup b.data →
      (a.merge b).count v = (b.merge a).count v) ∧
    (∀ (α : Type) [inst : DecidableEq α] (a b c : Frequencies α) (v : α),
      freqKeysNodup b.data → freqKeysNodup c.data →
      ((a.merge b).merge c).count v = (a.merge (b.merge c)).count v) ∧
    (∀ (α : Type) [inst : DecidableEq α] (l₁ l₂ : List α) (v : α),
      ((Frequencies.ofList l₁).merge (Frequencies.ofList l₂)).count v =
        (Frequencies.ofList (l₁ ++ l₂)).count v) ∧
    (∀ (α : Type) [inst : DecidableEq α] (l l' : List α) (v : α), l.Perm l' →
      (Frequencies.ofList l).count v = (Frequencies.ofList l').count v) := by
  refine ⟨?_, ?_, ?_, ?_, ?_⟩
  · intro α inst a b v hb
    exact freq_count_merge a b v hb
  · intro α inst a b v ha hb
    rw [freq_count_merge a b v hb, freq_count_merge b a v ha]
    omega
  · intro α inst a b c v hb hc
    have hbc : freqKeysNodup ((b.merge c).data) :=
      freqKeysNodup_foldl_entryAdd c.data b.data hb
    rw [freq_count_merge (a.merge b) c v hc, freq_count_merge a b v hb,
      freq_count_merge a (b.merge c) v hbc, freq_count_merge b c v hc]
    omega
  · intro α inst l₁ l₂ v
    rw [freq_count_merge _ _ v (freqKeysNodup_ofList l₂), freq_count_ofList,
      freq_count_ofList, freq_count_ofList, List.count_append]
  · intro α inst l l' v h
    rw [freq_count_ofList, freq_count_ofList]
    exact h.count_eq v

/-- C7 witness: merging the tables of `[1, 1, 2]` and `[2, 3]` adds the
counts of `2`, and the table is permutation-invariant on `[1, 2] ~ [2, 1]`. -/
theorem frequencies_merge_contract_witness :
    freqKeysNodup (Frequencies.ofList ([2, 3] : List ℤ)).data ∧
    ((Frequencies.ofList ([1, 1, 2] : List ℤ)).merge
        (Frequencies.ofList ([2, 3] : List ℤ))).count 2 =
      (Frequencies.ofList ([1, 1, 2] : List ℤ)).count 2 +
        (Frequencies.ofList ([2, 3] : List ℤ)).count 2 ∧
    ([1, 2] : List ℤ).Perm [2, 1] ∧
    (Frequencies.ofList ([1, 2] : List ℤ)).count 1 =
      (Frequencies.ofList ([2, 1] : List ℤ)).count 1 :=
  ⟨by decide,
    frequencies_merge_contract.1 ℤ (Frequencies.ofList [1, 1, 2])
      (Frequencies.ofList [2, 3]) 2 (by decide),
    List.Perm.swap 2 1 [],
    frequencies_merge_contract.2.2.2.2 ℤ [1, 2] [2, 1] 1 (List.Perm.swap 2 1 [])⟩
